import Mathlib

set_option maxHeartbeats 2000000

/-
  Verification of the encoding/decoding policy layer of the `serde-lexpr`
  crate: the bidirectional mapping between statically-typed structured values
  (scalars, sequences, tuples, optionals, maps, records, tagged unions) and a
  dynamically-typed S-expression value tree.

  The repository's `src/` holds only `serde-lexpr/src/lib.rs` (crate
  documentation with doctests and module declarations); the modules `de`,
  `ser`, `value`, `error` and the `lexpr` value type itself are not present.
  The definitions below are therefore modelled from the specification's data
  model (spec section 3), representation rules (spec section 4.1), decoder
  rules (spec section 4.2) and error model (spec section 7), cross-checked
  against the doctests in `lib.rs`.
-/

namespace Sexp

/-- Modelled from the spec: the S-expression Value Tree node (spec section 3,
`lexpr::Value`, whose defining crate is not under `src/`).  Floats are left
out of the model.  A proper list is a chain of `cons` nodes ending in
`null`; `vector` is a distinct node kind. -/
inductive Value where
  | null
  | bool (b : Bool)
  | int (n : Int)
  | char (c : Char)
  | str (s : String)
  | symbol (s : String)
  | keyword (s : String)
  | bytes (bs : List Nat)
  | cons (car cdr : Value)
  | vector (xs : List Value)

/-- Modelled from the spec: the classified error kinds of the error model
(spec section 7; `serde-lexpr`'s `error` module is not under `src/`).
`SyntaxError` belongs to the external text codec and is omitted. -/
inductive Err where
  | typeMismatch
  | unknownVariant
  | missingField
  | duplicateKey
  | unsupportedValue

mutual

/-- Modelled from the spec: the expected-shape request token describing the
typed shapes the host type system supports (spec sections 3 and 4; the
visitor-driven `de`/`ser` modules are not under `src/`).  `record` carries a
`closed` flag: a closed target type rejects unknown field names.  Scalars
cover booleans, integers, characters, strings and symbols. -/
inductive Ty where
  | bool
  | int
  | char
  | str
  | sym
  | seq (t : Ty)
  | tup (ts : List Ty)
  | opt (t : Ty)
  | map (tk tv : Ty)
  | record (closed : Bool) (fields : List (String × Ty))
  | union (variants : List (String × VarShape))

/-- Modelled from the spec: the shape of one union case (spec section 4.1):
no payload, a single anonymous field, positional fields, or named fields. -/
inductive VarShape where
  | unit
  | newtype (t : Ty)
  | tup (ts : List Ty)
  | strct (fields : List (String × Ty))

end

/-- Modelled from the spec: a typed host value of one of the supported
shapes (spec sections 1 and 4).  Union values carry their case name and a
payload matching the case's shape. -/
inductive TVal where
  | bool (b : Bool)
  | int (n : Int)
  | char (c : Char)
  | str (s : String)
  | sym (s : String)
  | seq (xs : List TVal)
  | tup (xs : List TVal)
  | opt (x : Option TVal)
  | mapv (kvs : List (TVal × TVal))
  | record (fields : List (String × TVal))
  | vUnit (name : String)
  | vNew (name : String) (x : TVal)
  | vTup (name : String) (xs : List TVal)
  | vStrct (name : String) (fields : List (String × TVal))

/-- Build the proper-list Value for a list of element nodes. -/
def listToValue : List Value → Value
  | [] => .null
  | v :: vs => .cons v (listToValue vs)

/-- Read a node as a proper list: `some` elements for a chain of `cons`
nodes ending in `null`, `none` otherwise. -/
def valueToList : Value → Option (List Value)
  | .null => some []
  | .cons a d => (valueToList d).map (a :: ·)
  | _ => none

/-- Length of a proper-list node, `none` if the node is not a proper list. -/
def chainLen : Value → Option Nat
  | .null => some 0
  | .cons _ d => (chainLen d).map (· + 1)
  | _ => none

/-- First-match association lookup by string key. -/
def assocLookup {β : Type} (s : String) : List (String × β) → Option β
  | [] => none
  | (k, b) :: rest => if k = s then some b else assocLookup s rest

mutual

/-- Modelled from the spec: the Encoder (spec section 4.1; the `ser` module
is not under `src/`).  Scalars become the corresponding atoms; a sequence
becomes a proper list; a tuple becomes a vector; an absent optional becomes
`null` and a present one a single-element proper list; a map becomes a
proper list of `cons` pairs; a record becomes an association list in
declared field order; a no-payload union case becomes a bare symbol, a
single-anonymous-field case a `cons` of the case symbol and the payload,
and positional/named-field cases a proper list headed by the case symbol. -/
def encode : TVal → Value
  | .bool b => .bool b
  | .int n => .int n
  | .char c => .char c
  | .str s => .str s
  | .sym s => .symbol s
  | .seq xs => encodeChain xs
  | .tup xs => .vector (encodeAll xs)
  | .opt none => .null
  | .opt (some x) => .cons (encode x) .null
  | .mapv kvs => encodePairs kvs
  | .record fs => encodeFields fs
  | .vUnit n => .symbol n
  | .vNew n x => .cons (.symbol n) (encode x)
  | .vTup n xs => .cons (.symbol n) (encodeChain xs)
  | .vStrct n fs => .cons (.symbol n) (encodeFields fs)

/-- Encode a list of typed values as a proper-list node. -/
def encodeChain : List TVal → Value
  | [] => .null
  | x :: xs => .cons (encode x) (encodeChain xs)

/-- Encode a list of typed values as a list of nodes. -/
def encodeAll : List TVal → List Value
  | [] => []
  | x :: xs => encode x :: encodeAll xs

/-- Encode map entries as a proper list of `cons` pairs. -/
def encodePairs : List (TVal × TVal) → Value
  | [] => .null
  | (k, v) :: rest => .cons (.cons (encode k) (encode v)) (encodePairs rest)

/-- Encode record fields as an association list in declared order. -/
def encodeFields : List (String × TVal) → Value
  | [] => .null
  | (n, x) :: rest => .cons (.cons (.symbol n) (encode x)) (encodeFields rest)

end

mutual

/-- Structural equality of Value Tree nodes. -/
def valueBeq : Value → Value → Bool
  | .null, .null => true
  | .bool a, .bool b => a == b
  | .int a, .int b => a == b
  | .char a, .char b => a == b
  | .str a, .str b => a == b
  | .symbol a, .symbol b => a == b
  | .keyword a, .keyword b => a == b
  | .bytes a, .bytes b => a == b
  | .cons a d, .cons a2 d2 => valueBeq a a2 && valueBeq d d2
  | .vector xs, .vector ys => valueListBeq xs ys
  | _, _ => false

/-- Structural equality of lists of Value Tree nodes. -/
def valueListBeq : List Value → List Value → Bool
  | [], [] => true
  | x :: xs, y :: ys => valueBeq x y && valueListBeq xs ys
  | _, _ => false

end

/-- Whether a key node occurs among the encodings of the keys of decoded
map entries.  Two typed keys count as the same key exactly when their
encodings are structurally equal nodes; equal typed values always have
equal encodings, so a pair list accepted by `keysUnique` has pairwise
distinct keys. -/
def keyMemb (x : Value) : List (TVal × TVal) → Bool
  | [] => false
  | (k, _) :: rest => valueBeq x (encode k) || keyMemb x rest

/-- Whether the keys of a decoded map are pairwise distinct. -/
def keysUnique : List (TVal × TVal) → Bool
  | [] => true
  | (k, _) :: rest => !keyMemb (encode k) rest && keysUnique rest

/-- Modelled from the spec: assemble a decoded record from the decoded
association-list entries.  Each declared field is resolved by scanning the
entries for its name; a field with no matching entry decodes to the absent
optional when its declared shape is optional, and is a `missingField` error
otherwise (spec section 4.2, record decode). -/
def fixup (got : List (String × TVal)) : List (String × Ty) → Except Err (List (String × TVal))
  | [] => .ok []
  | (n, ft) :: rest =>
    match assocLookup n got with
    | some x => (fixup got rest).map ((n, x) :: ·)
    | none =>
      match ft with
      | .opt _ => (fixup got rest).map ((n, .opt none) :: ·)
      | _ => .error .missingField

mutual

/-- Modelled from the spec: the Decoder (spec section 4.2; the `de` module
is not under `src/`).  Given an expected-shape request and a Value Tree
node, produce the typed value or fail with a classified error:

* scalars require the corresponding atom;
* a sequence accepts both a proper list and a vector of elements;
* a tuple requires a vector (or, permissively, a proper list) of exactly
  the expected arity, checked before any element is decoded;
* an optional requires a proper list of length 0 (absent) or 1 (present);
* a map requires a proper list of pairs and pairwise-distinct decoded keys;
* a record requires an association list; unknown field names are ignored
  unless the target is closed; fields are resolved by name via `fixup`;
* a union inspects the node: a bare symbol selects a no-payload case, a
  `cons` with symbol car selects the case named by the symbol and decodes
  the payload per the case's declared shape (single anonymous field: the
  whole cdr; positional fields: cdr as a proper list of the declared arity;
  named fields: cdr as an association list). -/
def decode : Ty → Value → Except Err TVal
  | .bool, .bool b => .ok (.bool b)
  | .bool, _ => .error .typeMismatch
  | .int, .int n => .ok (.int n)
  | .int, _ => .error .typeMismatch
  | .char, .char c => .ok (.char c)
  | .char, _ => .error .typeMismatch
  | .str, .str s => .ok (.str s)
  | .str, _ => .error .typeMismatch
  | .sym, .symbol s => .ok (.sym s)
  | .sym, _ => .error .typeMismatch
  | .seq _, .null => .ok (.seq [])
  | .seq te, .cons a d =>
    (decode te a).bind (fun x => (decodeSeqChain te d).map (fun xs => .seq (x :: xs)))
  | .seq te, .vector xs => (decodeSeqList te xs).map .seq
  | .seq _, _ => .error .typeMismatch
  | .tup ts, .vector xs =>
    if xs.length = ts.length then (decodeTupList ts xs).map .tup
    else .error .typeMismatch
  | .tup [], .null => .ok (.tup [])
  | .tup (t :: ts), .cons a d =>
    if chainLen d = some ts.length then
      (decode t a).bind (fun x => (decodeTupChain ts d).map (fun xs => .tup (x :: xs)))
    else .error .typeMismatch
  | .tup _, _ => .error .typeMismatch
  | .opt _, .null => .ok (.opt none)
  | .opt te, .cons x .null => (decode te x).map (fun y => .opt (some y))
  | .opt _, _ => .error .typeMismatch
  | .map _ _, .null => .ok (.mapv [])
  | .map tk tv, .cons (.cons k w) d =>
    (decode tk k).bind (fun x =>
      (decode tv w).bind (fun y =>
        (decodeMapChain tk tv d).bind (fun rest =>
          if keysUnique ((x, y) :: rest) then .ok (.mapv ((x, y) :: rest))
          else .error .duplicateKey)))
  | .map _ _, _ => .error .typeMismatch
  | .record _ tfs, .null => (fixup [] tfs).map .record
  | .record closed tfs, .cons (.cons (.symbol k) w) d =>
    (match assocLookup k tfs with
     | some ft =>
       (decode ft w).bind (fun x =>
         (decodeEntries closed tfs d).bind (fun got =>
           (fixup ((k, x) :: got) tfs).map .record))
     | none =>
       if closed then .error .typeMismatch
       else (decodeEntries closed tfs d).bind (fun got => (fixup got tfs).map .record))
  | .record _ _, _ => .error .typeMismatch
  | .union variants, .symbol s =>
    (match assocLookup s variants with
     | some .unit => .ok (.vUnit s)
     | some _ => .error .typeMismatch
     | none => .error .unknownVariant)
  | .union variants, .cons (.symbol s) rest =>
    (match assocLookup s variants with
     | none => .error .unknownVariant
     | some .unit => .error .typeMismatch
     | some (.newtype t) => (decode t rest).map (.vNew s)
     | some (.tup ts) =>
       if chainLen rest = some ts.length then (decodeTupChain ts rest).map (.vTup s)
       else .error .typeMismatch
     | some (.strct tfs) =>
       (decodeEntries false tfs rest).bind (fun got => (fixup got tfs).map (.vStrct s)))
  | .union _, _ => .error .typeMismatch

/-- Decode the tail of a proper-list node as further homogeneous sequence
elements. -/
def decodeSeqChain (te : Ty) : Value → Except Err (List TVal)
  | .null => .ok []
  | .cons a d => (decode te a).bind (fun x => (decodeSeqChain te d).map (x :: ·))
  | _ => .error .typeMismatch

/-- Decode vector items as homogeneous sequence elements. -/
def decodeSeqList (te : Ty) : List Value → Except Err (List TVal)
  | [] => .ok []
  | a :: rest => (decode te a).bind (fun x => (decodeSeqList te rest).map (x :: ·))

/-- Decode the tail of a proper-list node against the remaining tuple
component types, pairwise. -/
def decodeTupChain : List Ty → Value → Except Err (List TVal)
  | [], .null => .ok []
  | t :: ts, .cons a d => (decode t a).bind (fun x => (decodeTupChain ts d).map (x :: ·))
  | _, _ => .error .typeMismatch

/-- Decode vector items against the tuple component types, pairwise. -/
def decodeTupList : List Ty → List Value → Except Err (List TVal)
  | [], [] => .ok []
  | t :: ts, a :: rest => (decode t a).bind (fun x => (decodeTupList ts rest).map (x :: ·))
  | _, _ => .error .typeMismatch

/-- Decode the tail of a proper-list node as further map entries, each a
`cons` of key and value nodes. -/
def decodeMapChain (tk tv : Ty) : Value → Except Err (List (TVal × TVal))
  | .null => .ok []
  | .cons (.cons k w) d =>
    (decode tk k).bind (fun x =>
      (decode tv w).bind (fun y => (decodeMapChain tk tv d).map ((x, y) :: ·)))
  | _ => .error .typeMismatch

/-- Decode the tail of an association-list node for a record: each element
must be a `cons` whose car is a symbol; entries whose key names a declared
field are decoded at that field's type, unknown keys are skipped when the
target is open and rejected when it is closed. -/
def decodeEntries (closed : Bool) (tfs : List (String × Ty)) : Value → Except Err (List (String × TVal))
  | .null => .ok []
  | .cons (.cons (.symbol k) w) d =>
    (match assocLookup k tfs with
     | some ft => (decode ft w).bind (fun x => (decodeEntries closed tfs d).map ((k, x) :: ·))
     | none => if closed then .error .typeMismatch else decodeEntries closed tfs d)
  | _ => .error .typeMismatch

end

/-- The variant list of the doctest enum `Example` from the crate docs:
`Unit`, `Newtype(u32)`, `NewtypeOption(Option<u32>)`, `Tuple(u32, u32)`,
`Struct { foo: bool, bar: u32 }`, with kebab-case names. -/
def exampleUnion : List (String × VarShape) :=
  [("unit", .unit),
   ("newtype", .newtype .int),
   ("newtype-option", .newtype (.opt .int)),
   ("tuple", .tup [.int, .int]),
   ("struct", .strct [("foo", .bool), ("bar", .int)])]

/-- The union type of the doctest enum `Example`. -/
def exampleTy : Ty := .union exampleUnion

/-- Modelled from the spec: the typing judgment relating a typed host value
to a supported type (spec sections 1 and 4): which values are "typed values
of a type supported by this core".  Map keys are pairwise distinct and
record/named-field names are the declared names, without duplicates, as the
host type system guarantees. -/
inductive HasTy : TVal → Ty → Prop where
  | bool (b : Bool) : HasTy (.bool b) .bool
  | int (n : Int) : HasTy (.int n) .int
  | char (c : Char) : HasTy (.char c) .char
  | str (s : String) : HasTy (.str s) .str
  | sym (s : String) : HasTy (.sym s) .sym
  | seq {xs : List TVal} {te : Ty} (h : ∀ x ∈ xs, HasTy x te) : HasTy (.seq xs) (.seq te)
  | tup {xs : List TVal} {ts : List Ty} (hlen : xs.length = ts.length)
      (h : ∀ p ∈ List.zip xs ts, HasTy p.1 p.2) : HasTy (.tup xs) (.tup ts)
  | optNone {te : Ty} : HasTy (.opt none) (.opt te)
  | optSome {x : TVal} {te : Ty} (h : HasTy x te) : HasTy (.opt (some x)) (.opt te)
  | mapv {kvs : List (TVal × TVal)} {tk tv : Ty}
      (hk : ∀ p ∈ kvs, HasTy p.1 tk) (hv : ∀ p ∈ kvs, HasTy p.2 tv)
      (huniq : keysUnique kvs = true) : HasTy (.mapv kvs) (.map tk tv)
  | record {vfs : List (String × TVal)} {closed : Bool} {tfs : List (String × Ty)}
      (hnames : vfs.map Prod.fst = tfs.map Prod.fst)
      (hnodup : (vfs.map Prod.fst).Nodup)
      (h : ∀ q ∈ List.zip vfs tfs, HasTy q.1.2 q.2.2) :
      HasTy (.record vfs) (.record closed tfs)
  | vUnit {name : String} {variants : List (String × VarShape)}
      (hlook : assocLookup name variants = some .unit) : HasTy (.vUnit name) (.union variants)
  | vNew {name : String} {x : TVal} {te : Ty} {variants : List (String × VarShape)}
      (hlook : assocLookup name variants = some (.newtype te)) (h : HasTy x te) :
      HasTy (.vNew name x) (.union variants)
  | vTup {name : String} {xs : List TVal} {ts : List Ty} {variants : List (String × VarShape)}
      (hlook : assocLookup name variants = some (.tup ts))
      (hlen : xs.length = ts.length) (h : ∀ p ∈ List.zip xs ts, HasTy p.1 p.2) :
      HasTy (.vTup name xs) (.union variants)
  | vStrct {name : String} {vfs : List (String × TVal)} {tfs : List (String × Ty)}
      {variants : List (String × VarShape)}
      (hlook : assocLookup name variants = some (.strct tfs))
      (hnames : vfs.map Prod.fst = tfs.map Prod.fst)
      (hnodup : (vfs.map Prod.fst).Nodup)
      (h : ∀ q ∈ List.zip vfs tfs, HasTy q.1.2 q.2.2) :
      HasTy (.vStrct name vfs) (.union variants)

theorem valueToList_listToValue (l : List Value) : valueToList (listToValue l) = some l := by
  induction l with
  | nil => rfl
  | cons a rest ih => simp [listToValue, valueToList, ih]

theorem chainLen_listToValue (l : List Value) : chainLen (listToValue l) = some l.length := by
  induction l with
  | nil => rfl
  | cons a rest ih => simp [listToValue, chainLen, ih]

theorem encodeAll_eq_map (xs : List TVal) : encodeAll xs = xs.map encode := by
  induction xs with
  | nil => rfl
  | cons x rest ih => simp [encodeAll, ih]

theorem encodeChain_eq_listToValue (xs : List TVal) :
    encodeChain xs = listToValue (xs.map encode) := by
  induction xs with
  | nil => rfl
  | cons x rest ih => simp [encodeChain, listToValue, ih]

theorem encodeFields_eq_listToValue (fs : List (String × TVal)) :
    encodeFields fs = listToValue (fs.map (fun p => .cons (.symbol p.1) (encode p.2))) := by
  induction fs with
  | nil => rfl
  | cons p rest ih => cases p with
    | mk n x => simp [encodeFields, listToValue, ih]

theorem encodePairs_eq_listToValue (kvs : List (TVal × TVal)) :
    encodePairs kvs = listToValue (kvs.map (fun p => .cons (encode p.1) (encode p.2))) := by
  induction kvs with
  | nil => rfl
  | cons p rest ih => cases p with
    | mk k v => simp [encodePairs, listToValue, ih]

theorem chainLen_encodeChain (xs : List TVal) : chainLen (encodeChain xs) = some xs.length := by
  rw [encodeChain_eq_listToValue, chainLen_listToValue, List.length_map]

theorem encodeAll_length (xs : List TVal) : (encodeAll xs).length = xs.length := by
  rw [encodeAll_eq_map, List.length_map]

theorem listToValue_ne_vector (l ys : List Value) : listToValue l ≠ .vector ys := by
  cases l <;> simp [listToValue]

theorem decodeSeqChain_listToValue (te : Ty) (l : List Value) :
    decodeSeqChain te (listToValue l) = decodeSeqList te l := by
  induction l with
  | nil => rfl
  | cons a rest ih => simp [listToValue, decodeSeqChain, decodeSeqList, ih]

theorem decodeTupChain_listToValue (ts : List Ty) (l : List Value) :
    decodeTupChain ts (listToValue l) = decodeTupList ts l := by
  induction ts generalizing l with
  | nil => cases l <;> simp [listToValue, decodeTupChain, decodeTupList]
  | cons t ts ih => cases l <;> simp [listToValue, decodeTupChain, decodeTupList, ih]

theorem decode_record_eq (closed : Bool) (tfs : List (String × Ty)) (v : Value) :
    decode (.record closed tfs) v
      = (decodeEntries closed tfs v).bind (fun got => (fixup got tfs).map .record) := by
  cases v
  case cons a d =>
    cases a
    case cons k w =>
      cases k
      case symbol s =>
        simp only [decode, decodeEntries]
        cases assocLookup s tfs with
        | some ft =>
          cases h : decode ft w with
          | error e => simp [h, Except.bind]
          | ok x =>
            cases h2 : decodeEntries closed tfs d with
            | error e => simp [h, h2, Except.bind, Except.map]
            | ok got => simp [h, h2, Except.bind, Except.map]
        | none =>
          cases closed <;> simp [Except.bind]
      all_goals rfl
    all_goals rfl
  all_goals rfl

theorem decodeSeqChain_encode {te : Ty} {xs : List TVal}
    (h : ∀ x ∈ xs, decode te (encode x) = .ok x) :
    decodeSeqChain te (encodeChain xs) = .ok xs := by
  induction xs with
  | nil => rfl
  | cons x rest ih =>
    have hx := h x (by simp)
    have hr := ih (fun y hy => h y (by simp [hy]))
    simp [encodeChain, decodeSeqChain, hx, hr, Except.bind, Except.map]

theorem decodeSeqList_encode {te : Ty} {xs : List TVal}
    (h : ∀ x ∈ xs, decode te (encode x) = .ok x) :
    decodeSeqList te (encodeAll xs) = .ok xs := by
  induction xs with
  | nil => rfl
  | cons x rest ih =>
    have hx := h x (by simp)
    have hr := ih (fun y hy => h y (by simp [hy]))
    simp [encodeAll, decodeSeqList, hx, hr, Except.bind, Except.map]

theorem decodeTupChain_encode : ∀ {ts : List Ty} {xs : List TVal},
    xs.length = ts.length →
    (∀ p ∈ List.zip xs ts, decode p.2 (encode p.1) = .ok p.1) →
    decodeTupChain ts (encodeChain xs) = .ok xs := by
  intro ts
  induction ts with
  | nil =>
    intro xs hlen h
    cases xs with
    | nil => rfl
    | cons x rest => simp at hlen
  | cons t ts ih =>
    intro xs hlen h
    cases xs with
    | nil => simp at hlen
    | cons x rest =>
      have hx := h (x, t) (by simp [List.zip_cons_cons])
      have hr := ih (by simpa using hlen) (fun p hp => h p (by simp [List.zip_cons_cons, hp]))
      simp [encodeChain, decodeTupChain, hx, hr, Except.bind, Except.map]

theorem decodeTupList_encode : ∀ {ts : List Ty} {xs : List TVal},
    xs.length = ts.length →
    (∀ p ∈ List.zip xs ts, decode p.2 (encode p.1) = .ok p.1) →
    decodeTupList ts (encodeAll xs) = .ok xs := by
  intro ts
  induction ts with
  | nil =>
    intro xs hlen h
    cases xs with
    | nil => rfl
    | cons x rest => simp at hlen
  | cons t ts ih =>
    intro xs hlen h
    cases xs with
    | nil => simp at hlen
    | cons x rest =>
      have hx := h (x, t) (by simp [List.zip_cons_cons])
      have hr := ih (by simpa using hlen) (fun p hp => h p (by simp [List.zip_cons_cons, hp]))
      simp [encodeAll, decodeTupList, hx, hr, Except.bind, Except.map]

theorem decodeMapChain_encode {tk tv : Ty} {kvs : List (TVal × TVal)}
    (hk : ∀ p ∈ kvs, decode tk (encode p.1) = .ok p.1)
    (hv : ∀ p ∈ kvs, decode tv (encode p.2) = .ok p.2) :
    decodeMapChain tk tv (encodePairs kvs) = .ok kvs := by
  induction kvs with
  | nil => rfl
  | cons p rest ih =>
    cases p with
    | mk k v =>
      have h1 := hk (k, v) (by simp)
      have h2 := hv (k, v) (by simp)
      have hr := ih (fun q hq => hk q (by simp [hq])) (fun q hq => hv q (by simp [hq]))
      simp [encodePairs, decodeMapChain, h1, h2, hr, Except.bind, Except.map]

theorem assocLookup_eq_none {β : Type} {k : String} : ∀ {l : List (String × β)},
    k ∉ l.map Prod.fst → assocLookup k l = none := by
  intro l
  induction l with
  | nil => intro _; rfl
  | cons p rest ih =>
    intro h
    cases p with
    | mk n b =>
      rw [List.map_cons] at h
      have h1 : k ≠ n := fun hc => h (by simp [hc])
      have h2 : k ∉ rest.map Prod.fst := fun hc => h (by simp [hc])
      simp only [assocLookup]
      rw [if_neg (Ne.symm h1)]
      exact ih h2

theorem mem_zip_of_mem_left {α β : Type} : ∀ {us : List α} {ws : List β},
    us.length = ws.length → ∀ {p : α}, p ∈ us → ∃ w, (p, w) ∈ List.zip us ws := by
  intro us
  induction us with
  | nil => intro ws _ p hp; simp at hp
  | cons u us ih =>
    intro ws hlen p hp
    cases ws with
    | nil => simp at hlen
    | cons w ws =>
      rcases List.mem_cons.mp hp with h | h
      · exact ⟨w, by simp [List.zip_cons_cons, h]⟩
      · obtain ⟨w2, hw2⟩ := ih (by simpa using hlen) h
        exact ⟨w2, by simp [List.zip_cons_cons, hw2]⟩

theorem zip_assoc {α β : Type} : ∀ (us : List (String × α)) (ws : List (String × β)),
    us.map Prod.fst = ws.map Prod.fst → (us.map Prod.fst).Nodup →
    ∀ q ∈ List.zip us ws, q.1.1 = q.2.1 ∧ assocLookup q.1.1 ws = some q.2.2 := by
  intro us
  induction us with
  | nil =>
    intro ws _ _ q hq
    simp [List.zip] at hq
  | cons u us ih =>
    intro ws hnames hnodup q hq
    cases ws with
    | nil => simp at hnames
    | cons w ws =>
      cases u with
      | mk n a =>
        cases w with
        | mk m b =>
          rw [List.map_cons, List.map_cons] at hnames
          have hnm : n = m := (List.cons.injEq _ _ _ _ ▸ hnames).1
          have htl : us.map Prod.fst = ws.map Prod.fst := (List.cons.injEq _ _ _ _ ▸ hnames).2
          rw [List.map_cons, List.nodup_cons] at hnodup
          obtain ⟨hnotin, hnodup2⟩ := hnodup
          rw [List.zip_cons_cons] at hq
          rcases List.mem_cons.mp hq with h | h
          · subst h
            exact ⟨hnm, by simp [assocLookup, hnm]⟩
          · have hrec := ih ws htl hnodup2 q h
            refine ⟨hrec.1, ?_⟩
            have hq1 : q.1 ∈ us := (List.of_mem_zip h).1
            have hmem : q.1.1 ∈ us.map Prod.fst := List.mem_map_of_mem Prod.fst hq1
            have hne : m ≠ q.1.1 := by
              intro hc
              apply hnotin
              rw [hnm, hc]
              exact hmem
            simp only [assocLookup]
            rw [if_neg hne]
            exact hrec.2

theorem fixup_eq {got : List (String × TVal)} : ∀ (tfs : List (String × Ty)) (vfs : List (String × TVal)),
    tfs.length = vfs.length →
    (∀ q ∈ List.zip tfs vfs, q.1.1 = q.2.1 ∧ assocLookup q.1.1 got = some q.2.2) →
    fixup got tfs = .ok vfs := by
  intro tfs
  induction tfs with
  | nil =>
    intro vfs hlen _
    cases vfs with
    | nil => rfl
    | cons _ _ => simp at hlen
  | cons tf tfs ih =>
    intro vfs hlen h
    cases vfs with
    | nil => simp at hlen
    | cons vf vfs =>
      cases tf with
      | mk n ft =>
        cases vf with
        | mk m x =>
          have hhead := h ((n, ft), (m, x)) (by simp [List.zip_cons_cons])
          have hrec := ih vfs (by simpa using hlen) (fun q hq => h q (by simp [List.zip_cons_cons, hq]))
          have hnm : n = m := hhead.1
          have hlku : assocLookup n got = some x := hhead.2
          subst hnm
          simp [fixup, hlku, hrec, Except.map]

theorem decodeEntries_encode {closed : Bool} {tfs : List (String × Ty)} :
    ∀ {vfs : List (String × TVal)},
    (∀ p ∈ vfs, ∃ ft, assocLookup p.1 tfs = some ft ∧ decode ft (encode p.2) = .ok p.2) →
    decodeEntries closed tfs (encodeFields vfs) = .ok vfs := by
  intro vfs
  induction vfs with
  | nil => intro _; rfl
  | cons p rest ih =>
    intro h
    cases p with
    | mk n x =>
      obtain ⟨ft, hlku, hdec⟩ := h (n, x) (by simp)
      have hr := ih (fun q hq => h q (by simp [hq]))
      simp [encodeFields, decodeEntries, hlku, hdec, hr, Except.bind, Except.map]

theorem record_parts {vfs : List (String × TVal)} {tfs : List (String × Ty)}
    (hnames : vfs.map Prod.fst = tfs.map Prod.fst)
    (hnodup : (vfs.map Prod.fst).Nodup)
    (h : ∀ q ∈ List.zip vfs tfs, decode q.2.2 (encode q.1.2) = .ok q.1.2) :
    (∀ closed, decodeEntries closed tfs (encodeFields vfs) = .ok vfs) ∧
      fixup vfs tfs = .ok vfs := by
  have hlen : vfs.length = tfs.length := by
    have := congrArg List.length hnames
    simpa using this
  constructor
  · intro closed
    apply decodeEntries_encode
    intro p hp
    obtain ⟨w, hw⟩ := mem_zip_of_mem_left hlen hp
    have hz := zip_assoc vfs tfs hnames hnodup _ hw
    exact ⟨w.2, hz.2, h _ hw⟩
  · apply fixup_eq tfs vfs hlen.symm
    intro q hq
    exact zip_assoc tfs vfs hnames.symm (hnames ▸ hnodup) q hq

/-- C1: for every typed value `v` of a type supported by this core (boolean,
integer, character, string and symbol scalars, sequences, tuples, optionals,
maps, records, and unions), decoding the encoding of `v` at `v`'s own type
succeeds and returns a value equal to `v`. -/
theorem C1_decode_encode_roundtrip {v : TVal} {t : Ty} (h : HasTy v t) :
    decode t (encode v) = .ok v := by
  induction h with
  | bool b => rfl
  | int n => rfl
  | char c => rfl
  | str s => rfl
  | sym s => rfl
  | seq h ih =>
    rename_i xs te
    cases xs with
    | nil => rfl
    | cons x rest =>
      have hx := ih x (by simp)
      have hr := @decodeSeqChain_encode te rest (fun y hy => ih y (List.mem_cons_of_mem _ hy))
      simp [encode, encodeChain, decode, hx, hr, Except.bind, Except.map]
  | tup hlen h ih =>
    rename_i xs ts
    have hall := decodeTupList_encode hlen ih
    simp [encode, decode, encodeAll_length, hlen, hall, Except.map]
  | optNone => rfl
  | optSome h ih =>
    simp [encode, decode, ih, Except.map]
  | mapv hk hv huniq ihk ihv =>
    rename_i kvs tk tv
    cases kvs with
    | nil => rfl
    | cons p rest =>
      cases p with
      | mk k v =>
        have h1 := ihk (k, v) (by simp)
        have h2 := ihv (k, v) (by simp)
        have hr := @decodeMapChain_encode tk tv rest
          (fun q hq => ihk q (List.mem_cons_of_mem _ hq))
          (fun q hq => ihv q (List.mem_cons_of_mem _ hq))
        simp [encode, encodePairs, decode, h1, h2, hr, huniq, Except.bind]
  | record hnames hnodup h ih =>
    rename_i vfs closed tfs
    have parts := record_parts hnames hnodup ih
    have henc : encode (.record vfs) = encodeFields vfs := rfl
    rw [henc, decode_record_eq, parts.1 closed]
    simp [Except.bind, parts.2, Except.map]
  | vUnit hlook =>
    simp [encode, decode, hlook]
  | vNew hlook h ih =>
    simp [encode, decode, hlook, ih, Except.map]
  | vTup hlook hlen h ih =>
    have hall := decodeTupChain_encode hlen ih
    simp [encode, decode, hlook, chainLen_encodeChain, hlen, hall, Except.map]
  | vStrct hlook hnames hnodup h ih =>
    have parts := record_parts hnames hnodup ih
    simp [encode, decode, hlook, parts.1 false, parts.2, Except.bind, Except.map]

/-- Witness for C1 at the doctest `Person` record value. -/
theorem C1_witness :
    decode (.record false [("name", .str), ("age", .int)])
        (encode (.record [("name", .str "Billy"), ("age", .int 42)]))
      = .ok (.record [("name", .str "Billy"), ("age", .int 42)]) := by
  apply C1_decode_encode_roundtrip
  refine HasTy.record rfl (by decide) ?_
  intro q hq
  simp [List.zip_cons_cons] at hq
  rcases hq with h | h
  · subst h; exact HasTy.str "Billy"
  · subst h; exact HasTy.int 42

/-- C2: union decode chooses its branch from the node: a bare symbol decodes
to the matching no-payload case; a `cons` whose car is a symbol naming a
single-anonymous-field case decodes the whole cdr as the payload; a proper
list headed by a symbol naming a positional-fields case decodes the
remaining elements positionally at the declared arity; one naming a
named-fields case reads the remaining elements as association-list
entries. -/
theorem C2_union_decode_dispatch :
    (∀ (variants : List (String × VarShape)) (s : String),
      assocLookup s variants = some .unit →
      decode (.union variants) (.symbol s) = .ok (.vUnit s)) ∧
    (∀ (variants : List (String × VarShape)) (s : String) (te : Ty) (w : Value),
      assocLookup s variants = some (.newtype te) →
      decode (.union variants) (.cons (.symbol s) w) = (decode te w).map (.vNew s)) ∧
    (∀ (variants : List (String × VarShape)) (s : String) (ts : List Ty) (elems : List Value),
      assocLookup s variants = some (.tup ts) →
      decode (.union variants) (listToValue (.symbol s :: elems))
        = (if elems.length = ts.length
           then (decodeTupList ts elems).map (.vTup s) else .error .typeMismatch)) ∧
    (∀ (variants : List (String × VarShape)) (s : String) (tfs : List (String × Ty))
        (elems : List Value),
      assocLookup s variants = some (.strct tfs) →
      decode (.union variants) (listToValue (.symbol s :: elems))
        = (decodeEntries false tfs (listToValue elems)).bind
            (fun got => (fixup got tfs).map (.vStrct s))) := by
  refine ⟨?_, ?_, ?_, ?_⟩
  · intro variants s h
    simp [decode, h]
  · intro variants s te w h
    simp [decode, h]
  · intro variants s ts elems h
    show decode (.union variants) (.cons (.symbol s) (listToValue elems)) = _
    simp only [decode, h]
    rw [chainLen_listToValue, decodeTupChain_listToValue]
    by_cases hl : elems.length = ts.length
    · rw [if_pos (by rw [hl]), if_pos hl]
    · rw [if_neg (by simpa using hl), if_neg hl]
  · intro variants s tfs elems h
    show decode (.union variants) (.cons (.symbol s) (listToValue elems)) = _
    simp only [decode, h]

/-- Witness for C2: the four decode scenarios of the doctest enum
`Example`. -/
theorem C2_witness :
    decode exampleTy (.symbol "unit") = .ok (.vUnit "unit") ∧
    decode exampleTy (.cons (.symbol "newtype") (.int 42)) = .ok (.vNew "newtype" (.int 42)) ∧
    decode exampleTy (listToValue [.symbol "tuple", .int 1, .int 2])
      = .ok (.vTup "tuple" [.int 1, .int 2]) ∧
    decode exampleTy (listToValue [.symbol "struct",
        .cons (.symbol "foo") (.bool true), .cons (.symbol "bar") (.int 3)])
      = .ok (.vStrct "struct" [("foo", .bool true), ("bar", .int 3)]) := by
  obtain ⟨h1, h2, h3, h4⟩ := C2_union_decode_dispatch
  refine ⟨h1 exampleUnion "unit" rfl, ?_, ?_, ?_⟩
  · exact (h2 exampleUnion "newtype" .int (.int 42) rfl).trans rfl
  · exact (h3 exampleUnion "tuple" [.int, .int] [.int 1, .int 2] rfl).trans rfl
  · exact (h4 exampleUnion "struct" [("foo", .bool), ("bar", .int)]
      [.cons (.symbol "foo") (.bool true), .cons (.symbol "bar") (.int 3)] rfl).trans rfl

/-- C3: decoding a proper-list node and decoding a Vector node that hold the
same elements against a sequence type yield equal results, so both succeed
with equal typed sequences whenever the elements decode. -/
theorem C3_seq_list_vector_equiv (te : Ty) (xs : List Value) :
    decode (.seq te) (listToValue xs) = decode (.seq te) (.vector xs) := by
  cases xs with
  | nil => rfl
  | cons a rest =>
    show decode (.seq te) (.cons a (listToValue rest)) = decode (.seq te) (.vector (a :: rest))
    simp only [decode, decodeSeqList]
    cases h : decode te a with
    | error e => simp [h, Except.bind, Except.map]
    | ok x =>
      rw [decodeSeqChain_listToValue]
      cases h2 : decodeSeqList te rest with
      | error e => simp [h, h2, Except.bind, Except.map]
      | ok ys => simp [h, h2, Except.bind, Except.map]

/-- C4: decoding into an optional yields absent exactly on the empty proper
list, yields present (decoding the single element) exactly on a one-element
proper list, and is a `typeMismatch` error on longer proper lists and on
every node that is not a proper list. -/
theorem C4_optional_decode :
    (∀ te : Ty, decode (.opt te) (listToValue []) = .ok (.opt none)) ∧
    (∀ (te : Ty) (x : Value),
      decode (.opt te) (listToValue [x]) = (decode te x).map (fun y => .opt (some y))) ∧
    (∀ (te : Ty) (xs : List Value), 2 ≤ xs.length →
      decode (.opt te) (listToValue xs) = .error .typeMismatch) ∧
    (∀ (te : Ty) (v : Value), valueToList v = none →
      decode (.opt te) v = .error .typeMismatch) := by
  refine ⟨fun te => rfl, fun te x => rfl, ?_, ?_⟩
  · intro te xs hlen
    cases xs with
    | nil => simp at hlen
    | cons a rest =>
      cases rest with
      | nil => simp at hlen
      | cons b rest2 => rfl
  · intro te v h
    cases v with
    | null => simp [valueToList] at h
    | cons a d =>
      cases d with
      | null => simp [valueToList] at h
      | cons b d2 => rfl
      | bool x => rfl
      | int x => rfl
      | char x => rfl
      | str x => rfl
      | symbol x => rfl
      | keyword x => rfl
      | bytes x => rfl
      | vector x => rfl
    | bool x => rfl
    | int x => rfl
    | char x => rfl
    | str x => rfl
    | symbol x => rfl
    | keyword x => rfl
    | bytes x => rfl
    | vector x => rfl

/-- Witness for C4: a two-element list and a non-list node both fail with
`typeMismatch` against an optional type. -/
theorem C4_witness :
    decode (.opt .int) (listToValue [.int 1, .int 2]) = .error .typeMismatch ∧
    decode (.opt .int) (.symbol "x") = .error .typeMismatch :=
  ⟨C4_optional_decode.2.2.1 .int [.int 1, .int 2] (by decide),
   C4_optional_decode.2.2.2 .int (.symbol "x") rfl⟩

/-- C5: tuple decode accepts a vector, and permissively a proper list, of
exactly the declared arity (the two spellings decode identically); whenever
the element count differs from the declared arity the decode fails with a
`typeMismatch` error, never truncating or padding. -/
theorem C5_tuple_arity :
    (∀ (ts : List Ty) (vs : List Value), vs.length ≠ ts.length →
      decode (.tup ts) (.vector vs) = .error .typeMismatch) ∧
    (∀ (ts : List Ty) (vs : List Value), vs.length ≠ ts.length →
      decode (.tup ts) (listToValue vs) = .error .typeMismatch) ∧
    (∀ (ts : List Ty) (vs : List Value),
      decode (.tup ts) (.vector vs) = decode (.tup ts) (listToValue vs)) ∧
    decode (.tup [.int, .str, .int]) (listToValue [.int 1, .str "two", .int 3])
      = .ok (.tup [.int 1, .str "two", .int 3]) ∧
    decode (.tup [.str, .int]) (.vector [.str "Joanne", .int 23])
      = .ok (.tup [.str "Joanne", .int 23]) := by
  have hvec : ∀ (ts : List Ty) (vs : List Value), vs.length ≠ ts.length →
      decode (.tup ts) (.vector vs) = .error .typeMismatch := by
    intro ts vs h
    simp only [decode]
    rw [if_neg h]
  have hlist : ∀ (ts : List Ty) (vs : List Value), vs.length ≠ ts.length →
      decode (.tup ts) (listToValue vs) = .error .typeMismatch := by
    intro ts vs h
    cases ts with
    | nil =>
      cases vs with
      | nil => exact absurd rfl h
      | cons v vs2 => rfl
    | cons t ts2 =>
      cases vs with
      | nil => rfl
      | cons v vs2 =>
        show decode (.tup (t :: ts2)) (.cons v (listToValue vs2)) = _
        simp only [decode]
        rw [chainLen_listToValue, if_neg (by simpa using h)]
  refine ⟨hvec, hlist, ?_, rfl, rfl⟩
  intro ts vs
  by_cases hl : vs.length = ts.length
  · cases ts with
    | nil =>
      cases vs with
      | nil => rfl
      | cons v vs2 => simp at hl
    | cons t ts2 =>
      cases vs with
      | nil => simp at hl
      | cons v vs2 =>
        have hl2 : vs2.length = ts2.length := by simpa using hl
        show decode (.tup (t :: ts2)) (.vector (v :: vs2))
            = decode (.tup (t :: ts2)) (.cons v (listToValue vs2))
        simp only [decode, decodeTupList]
        rw [chainLen_listToValue, if_pos hl,
            if_pos (show some vs2.length = some ts2.length by rw [hl2]),
            decodeTupChain_listToValue]
        cases h : decode t v with
        | error e => simp [h, Except.bind, Except.map]
        | ok x =>
          cases h2 : decodeTupList ts2 vs2 with
          | error e => simp [h, h2, Except.bind, Except.map]
          | ok ys => simp [h, h2, Except.bind, Except.map]
  · rw [hvec ts vs hl, hlist ts vs hl]

/-- Witness for C5: a two-element vector and a two-element list against a
three-component tuple type are `typeMismatch` errors. -/
theorem C5_witness :
    decode (.tup [.int, .int, .int]) (.vector [.int 1, .int 2]) = .error .typeMismatch ∧
    decode (.tup [.int, .int, .int]) (listToValue [.int 1, .int 2]) = .error .typeMismatch :=
  ⟨C5_tuple_arity.1 _ _ (by decide), C5_tuple_arity.2.1 _ _ (by decide)⟩

/-- C6: record decode resolves each declared field by name in the
association list: an entry whose key matches no declared field is ignored
when the target is open and rejected when the target is closed; a declared
field with no matching entry is a `missingField` error unless its declared
shape is optional, in which case it decodes to the absent optional. -/
theorem C6_record_fields :
    (∀ (tfs : List (String × Ty)) (k : String) (w : Value) (vs : List Value),
      k ∉ tfs.map Prod.fst →
      decode (.record false tfs) (listToValue (.cons (.symbol k) w :: vs))
        = decode (.record false tfs) (listToValue vs)) ∧
    (∀ (tfs : List (String × Ty)) (k : String) (w : Value) (vs : List Value),
      k ∉ tfs.map Prod.fst →
      decode (.record true tfs) (listToValue (.cons (.symbol k) w :: vs))
        = .error .typeMismatch) ∧
    (∀ (closed : Bool) (n : String) (ft : Ty) (tfs : List (String × Ty)),
      (∀ te : Ty, ft ≠ .opt te) →
      decode (.record closed ((n, ft) :: tfs)) (listToValue []) = .error .missingField) ∧
    (∀ (closed : Bool) (n : String) (te : Ty),
      decode (.record closed [(n, .opt te)]) (listToValue [])
        = .ok (.record [(n, .opt none)])) := by
  refine ⟨?_, ?_, ?_, ?_⟩
  · intro tfs k w vs h
    rw [decode_record_eq, decode_record_eq]
    show (decodeEntries false tfs (.cons (.cons (.symbol k) w) (listToValue vs))).bind _ = _
    simp only [decodeEntries, assocLookup_eq_none h]
    rfl
  · intro tfs k w vs h
    show decode (.record true tfs) (.cons (.cons (.symbol k) w) (listToValue vs)) = _
    simp only [decode, assocLookup_eq_none h]
    rfl
  · intro closed n ft tfs h
    show decode (.record closed ((n, ft) :: tfs)) .null = _
    cases ft with
    | opt te => exact absurd rfl (h te)
    | bool => rfl
    | int => rfl
    | char => rfl
    | str => rfl
    | sym => rfl
    | seq t2 => rfl
    | tup ts2 => rfl
    | map tk2 tv2 => rfl
    | record c2 f2 => rfl
    | union v2 => rfl
  · intro closed n te
    rfl

/-- Witness for C6: an unknown key is skipped by an open record and rejected
by a closed one; a missing non-optional field is a `missingField` error and
a missing optional field decodes to absent. -/
theorem C6_witness :
    decode (.record false [("age", .int)])
        (listToValue [.cons (.symbol "extra") (.int 0), .cons (.symbol "age") (.int 42)])
      = decode (.record false [("age", .int)])
          (listToValue [.cons (.symbol "age") (.int 42)]) ∧
    decode (.record true [("age", .int)])
        (listToValue [.cons (.symbol "extra") (.int 0), .cons (.symbol "age") (.int 42)])
      = .error .typeMismatch ∧
    decode (.record false [("name", .str), ("age", .int)]) (listToValue [])
      = .error .missingField ∧
    decode (.record false [("maybe", .opt .int)]) (listToValue [])
      = .ok (.record [("maybe", .opt none)]) :=
  ⟨C6_record_fields.1 _ "extra" _ _ (by decide),
   C6_record_fields.2.1 _ "extra" _ _ (by decide),
   C6_record_fields.2.2.1 false "name" .str [("age", .int)] (fun te h => Ty.noConfusion h),
   C6_record_fields.2.2.2 false "maybe" .int⟩

/-- C7: encoding a record with named fields produces the association list of
`cons (symbol field-name) (encoded field value)` pairs in declared field
order; in particular the `Person` doctest value encodes to
`((name . "Billy") (age . 42))`. -/
theorem C7_record_encode_order :
    (∀ fs : List (String × TVal),
      encode (.record fs)
        = listToValue (fs.map (fun p => .cons (.symbol p.1) (encode p.2)))) ∧
    encode (.record [("name", .str "Billy"), ("age", .int 42)])
      = .cons (.cons (.symbol "name") (.str "Billy"))
          (.cons (.cons (.symbol "age") (.int 42)) .null) :=
  ⟨fun fs => encodeFields_eq_listToValue fs, rfl⟩

/-- C8: map decode accepts any proper list of `cons` pairs (keys need not be
symbols) and yields a mapping whose keys are pairwise distinct; a repeated
key, as in `((a . 1) (a . 2))`, is a `duplicateKey` error. -/
theorem C8_map_decode :
    (∀ (tk tv : Ty) (v : Value) (kvs : List (TVal × TVal)),
      decode (.map tk tv) v = .ok (.mapv kvs) → keysUnique kvs = true) ∧
    decode (.map .sym .int)
        (listToValue [.cons (.symbol "a") (.int 1), .cons (.symbol "a") (.int 2)])
      = .error .duplicateKey ∧
    decode (.map .int .int) (listToValue [.cons (.int 1) (.int 2)])
      = .ok (.mapv [(.int 1, .int 2)]) ∧
    decode (.map .sym .int) (listToValue [.int 5]) = .error .typeMismatch := by
  refine ⟨?_, rfl, rfl, rfl⟩
  intro tk tv v kvs h
  cases v with
  | null =>
    simp [decode] at h
    subst h
    rfl
  | cons a d =>
    cases a with
    | cons k w =>
      simp only [decode] at h
      cases h1 : decode tk k with
      | error e => rw [h1] at h; simp [Except.bind] at h
      | ok x =>
        rw [h1] at h
        cases h2 : decode tv w with
        | error e => rw [h2] at h; simp [Except.bind] at h
        | ok y =>
          rw [h2] at h
          cases h3 : decodeMapChain tk tv d with
          | error e => rw [h3] at h; simp [Except.bind] at h
          | ok rest =>
            rw [h3] at h
            simp only [Except.bind] at h
            by_cases hu : keysUnique ((x, y) :: rest) = true
            · rw [if_pos hu] at h
              simp at h
              rw [← h]
              exact hu
            · rw [if_neg hu] at h
              simp at h
    | null => simp [decode] at h
    | bool b => simp [decode] at h
    | int n => simp [decode] at h
    | char c => simp [decode] at h
    | str s => simp [decode] at h
    | symbol s => simp [decode] at h
    | keyword s => simp [decode] at h
    | bytes bs => simp [decode] at h
    | vector xs => simp [decode] at h
  | bool b => simp [decode] at h
  | int n => simp [decode] at h
  | char c => simp [decode] at h
  | str s => simp [decode] at h
  | symbol s => simp [decode] at h
  | keyword s => simp [decode] at h
  | bytes bs => simp [decode] at h
  | vector xs => simp [decode] at h

/-- Witness for C8: a successful map decode yields pairwise-distinct keys. -/
theorem C8_witness : keysUnique [(.int 1, .int 2)] = true :=
  C8_map_decode.1 .int .int (listToValue [.cons (.int 1) (.int 2)]) [(.int 1, .int 2)] rfl

/-- C9: a sequence decoded from a Vector node re-encodes as the proper-list
form with the same re-encoded elements, never as a Vector node: the encoder
emits sequences as lists regardless of which accepted syntax was decoded. -/
theorem C9_reencode_normalizes :
    (∀ (te : Ty) (items : List Value) (v : TVal),
      decode (.seq te) (.vector items) = .ok v →
      (∃ xs : List TVal, v = .seq xs ∧ encode v = listToValue (xs.map encode)) ∧
      (∀ ys : List Value, encode v ≠ .vector ys)) ∧
    (decode (.seq .int) (.vector [.int 1, .int 2, .int 3])
        = .ok (.seq [.int 1, .int 2, .int 3]) ∧
      encode (.seq [.int 1, .int 2, .int 3])
        = .cons (.int 1) (.cons (.int 2) (.cons (.int 3) .null))) := by
  refine ⟨?_, rfl, rfl⟩
  intro te items v h
  simp only [decode] at h
  cases h2 : decodeSeqList te items with
  | error e => rw [h2] at h; simp [Except.map] at h
  | ok xs =>
    rw [h2] at h
    simp [Except.map] at h
    subst h
    constructor
    · exact ⟨xs, rfl, by rw [show encode (.seq xs) = encodeChain xs from rfl,
        encodeChain_eq_listToValue]⟩
    · intro ys
      rw [show encode (.seq xs) = encodeChain xs from rfl, encodeChain_eq_listToValue]
      exact listToValue_ne_vector _ _

/-- Witness for C9 at the doctest input `#(1 2 3)`. -/
theorem C9_witness :
    (∃ xs : List TVal, TVal.seq [.int 1, .int 2, .int 3] = .seq xs ∧
      encode (TVal.seq [.int 1, .int 2, .int 3]) = listToValue (xs.map encode)) ∧
    (∀ ys : List Value, encode (TVal.seq [.int 1, .int 2, .int 3]) ≠ .vector ys) :=
  C9_reencode_normalizes.1 .int [.int 1, .int 2, .int 3] (.seq [.int 1, .int 2, .int 3]) rfl

/-- C10: a single-anonymous-field union case with an optional payload
composes with the cons-payload rule through the cdr: `(newtype-option)`
has cdr `null` and decodes to the variant holding absent, while
`(newtype-option 23)` has cdr `(23)` and decodes to the variant holding
present 23; in general such a case decodes its whole cdr at the optional
payload type. -/
theorem C10_newtype_option :
    decode exampleTy (listToValue [.symbol "newtype-option"])
      = .ok (.vNew "newtype-option" (.opt none)) ∧
    decode exampleTy (listToValue [.symbol "newtype-option", .int 23])
      = .ok (.vNew "newtype-option" (.opt (some (.int 23)))) ∧
    (∀ (variants : List (String × VarShape)) (s : String) (te : Ty) (w : Value),
      assocLookup s variants = some (.newtype (.opt te)) →
      decode (.union variants) (.cons (.symbol s) w)
        = (decode (.opt te) w).map (.vNew s)) := by
  refine ⟨rfl, rfl, ?_⟩
  intro variants s te w h
  simp [decode, h]

/-- Witness for C10: the general cons-payload rule applied to the
`newtype-option` case of the doctest enum. -/
theorem C10_witness :
    decode exampleTy (.cons (.symbol "newtype-option") .null)
      = (decode (.opt .int) .null).map (.vNew "newtype-option") :=
  C10_newtype_option.2.2 exampleUnion "newtype-option" .int .null rfl

end Sexp
